import Mathlib

/-!
Verification development for the `tsz` abstract interpreter core
(`src/value.ts` and the evaluator module).

The TypeScript source is shallowly embedded:
* the syntax-tree input (produced externally by the TypeScript parser) is the
  inductive `Node`; literal text of a numeric literal is abstracted to the
  integer it denotes, and JS numbers are modelled as `Int` (only construction
  from literals and `===`-comparison occur in the source);
* `Value` / `ValueConstraint` mirror `src/value.ts`; optional payload fields
  become `Option`s (a JS field is either present or absent, and present
  payloads are never the JS value `undefined` in this code base);
* the `node` back-reference stored inside a Function constraint is only ever
  tested for presence and compared by JS reference equality (`===`), so it is
  modelled as an opaque reference id `Nat`;
* the single native handler in the program (`console.log`'s) is the one
  inhabitant of `Handler`;
* mutable state (the scope chain's `Map`s mutated by `setVar` /
  `bindings.set`, and the `sideEffects` array) is threaded explicitly: scopes
  live in a store indexed by `Nat` (parent links are indices), and the
  evaluator runs in `EvalM`, a state-plus-exception monad whose state
  survives a thrown `CompileError` exactly as a captured JS array does;
* the evaluator's recursion is bounded by explicit fuel; the source recursion
  is structural on the (finite, acyclic) syntax tree, and `compile` supplies
  `nodeSize tree + 1` fuel, which every recursive call strictly decreases, so
  exhaustion never occurs in a run started by `compile`.
-/

mutual
/-- Syntax-node kinds the evaluator dispatches on (`ts.Node` as consumed by
`execNode`); every unrecognized kind is collapsed into `unknownNode`, which the
evaluator rejects exactly as the source's final `else` branch does. -/
inductive Node where
  | sourceFile (statements : List Node)
  | variableStatement (isLet : Bool) (isConst : Bool) (declarations : List VarDecl)
  | callExpression (expression : Node) (arguments : List Node)
  | expressionStatement (expression : Node)
  | binaryExpression (left : Node) (isAssign : Bool) (right : Node)
  | propertyAccessExpression (expression : Node) (name : String)
  | numericLiteral (value : Int)
  | identifier (text : String)
  | nullKeyword
  | trueKeyword
  | falseKeyword
  | arrayBindingPattern
  | objectBindingPattern
  | unknownNode
inductive VarDecl where
  | mk (name : Node) (initializer : Option Node)
end

/-- The `ValueType` enumeration of `src/value.ts`, in its numeric order
(EXCEPTION = 1 … SYMBOL = 11). -/
inductive ValueType where
  | exception
  | any
  | undefined
  | null
  | boolean
  | number
  | string
  | array
  | object
  | function
  | symbol
deriving DecidableEq

/-- The only native handler occurring in the program: `console.log`'s
`() => new Value([{ type: ValueType.UNDEFINED }])`.  Handlers are compared by
JS reference equality; the program contains exactly this one. -/
inductive Handler where
  | consoleLog
deriving DecidableEq

mutual
/-- The `Value` class of `src/value.ts`: a wrapper around an ordered sequence
of constraints. -/
inductive Value where
  | mk (constraints : List ValueConstraint)
/-- The `ValueConstraint` tagged union of `src/value.ts`; each variant
optionally carries the refinement fields of its TypeScript counterpart. -/
inductive ValueConstraint where
  | anyC
  | undefinedC
  | nullC
  | booleanC (value : Option Bool)
  | numberC (value : Option Int)
  | objectC (props : Option (List (String × Value)))
  | functionC (hasSideEffects : Option Bool) (handler : Option Handler) (node : Option Nat)
end

/-- Accessor for the `constraints` field of `Value`. -/
def Value.constraints : Value → List ValueConstraint
  | .mk cs => cs

/-- The result of invoking a native handler; `console.log`'s handler ignores
its arguments and returns an Undefined-typed Value. -/
def Handler.run : Handler → List Value → Value
  | .consoleLog, _ => Value.mk [.undefinedC]

mutual
/-- Structural equality test for the `Value` family, modelling the JS `===`
comparisons performed by the join's duplicate check (see `identical`). -/
def valueBeq : Value → Value → Bool
  | .mk cs, .mk ds => constraintListBeq cs ds
def constraintListBeq : List ValueConstraint → List ValueConstraint → Bool
  | [], [] => true
  | c :: cs, d :: ds => constraintBeq c d && constraintListBeq cs ds
  | _, _ => false
def constraintBeq : ValueConstraint → ValueConstraint → Bool
  | .anyC, .anyC => true
  | .undefinedC, .undefinedC => true
  | .nullC, .nullC => true
  | .booleanC v, .booleanC w => v == w
  | .numberC v, .numberC w => v == w
  | .objectC none, .objectC none => true
  | .objectC (some p), .objectC (some q) => propsBeq p q
  | .functionC h1 s1 n1, .functionC h2 s2 n2 => h1 == h2 && s1 == s2 && n1 == n2
  | _, _ => false
def propsBeq : List (String × Value) → List (String × Value) → Bool
  | [], [] => true
  | (k, v) :: ps, (l, w) :: qs => k == l && valueBeq v w && propsBeq ps qs
  | _, _ => false
end

/-- The `type` tag carried by a constraint (`constraint.type` in the source). -/
def constraintType : ValueConstraint → ValueType
  | .anyC => .any
  | .undefinedC => .undefined
  | .nullC => .null
  | .booleanC _ => .boolean
  | .numberC _ => .number
  | .objectC _ => .object
  | .functionC _ _ _ => .function

/-- Number of entries a present optional field contributes to `Object.keys`. -/
def optCount {α : Type} : Option α → Nat
  | none => 0
  | some _ => 1

/-- `Object.keys(constraint).length`: the `type` field plus every present
optional field. -/
def fieldCount : ValueConstraint → Nat
  | .anyC => 1
  | .undefinedC => 1
  | .nullC => 1
  | .booleanC v => 1 + optCount v
  | .numberC v => 1 + optCount v
  | .objectC p => 1 + optCount p
  | .functionC hs h nd => 1 + optCount hs + optCount h + optCount nd

/-- `entries.length === 0` in `applyToValue`: the constraint carries no
refinement payload, i.e. it is the generic form for its type. -/
def payloadFree (r : ValueConstraint) : Bool :=
  fieldCount r == 1

/-- One non-`type` field of `result` being present and `===` to the same-named
field of `c2` (fields of different variants never share a matching value,
mirroring JS strict equality across types). -/
def optFieldMatch {α : Type} [BEq α] : Option α → Option α → Bool
  | none, _ => true
  | some x, some y => x == y
  | some _, none => false

/-- `entries.every(([key, value]) => c2[key] === value)` of `applyToValue`:
every present non-`type` field of the first constraint is present in the
second with a `===`-equal value (object payloads are compared structurally,
standing for JS reference equality, which implies it). -/
def entriesMatch : ValueConstraint → ValueConstraint → Bool
  | .anyC, _ => true
  | .undefinedC, _ => true
  | .nullC, _ => true
  | .booleanC none, _ => true
  | .booleanC (some b), .booleanC (some b2) => b == b2
  | .booleanC (some _), _ => false
  | .numberC none, _ => true
  | .numberC (some n), .numberC (some n2) => n == n2
  | .numberC (some _), _ => false
  | .objectC none, _ => true
  | .objectC (some p), .objectC (some p2) => propsBeq p p2
  | .objectC (some _), _ => false
  | .functionC none none none, _ => true
  | .functionC hs h nd, .functionC hs2 h2 nd2 =>
      optFieldMatch hs hs2 && optFieldMatch h h2 && optFieldMatch nd nd2
  | .functionC _ _ _, _ => false

/-- The duplicate test of `applyToValue`:
`Object.keys(c2).length === entries.length + 1 && entries.every(...)` —
`c2` has exactly as many fields as `result`, and every payload field of
`result` matches in `c2`. -/
def identical (r c2 : ValueConstraint) : Bool :=
  fieldCount c2 == fieldCount r && entriesMatch r c2

/-- State of one slot of `constraintsByType`: absent, the marker `true`
(generalized), or the ordered list of distinct specific constraints. -/
inductive Bucket where
  | unset
  | generalized
  | specifics (l : List ValueConstraint)

/-- The `constraintsByType` accumulator, one `Bucket` per `ValueType`. -/
def BucketMap : Type := ValueType → Bucket

/-- The empty accumulator `{}`. -/
def emptyBuckets : BucketMap := fun _ => .unset

/-- Point update of the accumulator. -/
def updateBucket (m : BucketMap) (t : ValueType) (b : Bucket) : BucketMap :=
  fun t' => if t' = t then b else m t'

/-- The per-bucket transition of `applyToValue`'s inner loop for one non-Any
result constraint `r` landing in bucket `b`:
an absent bucket is set to `[result]`; a generalized bucket discards `r`
(`continue`); otherwise a payload-free `r` generalizes the bucket, a
duplicate is discarded, and anything else is appended. -/
def tstep (b : Bucket) (r : ValueConstraint) : Bucket :=
  match b with
  | .unset => .specifics [r]
  | .generalized => .generalized
  | .specifics l =>
      if payloadFree r then .generalized
      else if l.any (fun c2 => identical r c2) then .specifics l
      else .specifics (l ++ [r])

/-- One non-Any result constraint processed into `constraintsByType`. -/
def insertConstraint (m : BucketMap) (r : ValueConstraint) : BucketMap :=
  updateBucket m (constraintType r) (tstep (m (constraintType r)) r)

/-- The inner `for (const result of callback(constraint))` loop: processes a
result list into the accumulator, short-circuiting with `none` when
`result.type === ValueType.ANY` (the source returns `new Value([result])`
right there). -/
def processList (m : BucketMap) : List ValueConstraint → Option BucketMap
  | [] => some m
  | r :: rest =>
      if constraintType r = ValueType.any then none
      else processList (insertConstraint m r) rest

/-- The outer `for (const constraint of value.constraints)` loop of
`applyToValue`, for a pure callback. -/
def processConstraints (f : ValueConstraint → List ValueConstraint) :
    List ValueConstraint → BucketMap → Option BucketMap
  | [], m => some m
  | c :: cs, m =>
      match processList m (f c) with
      | none => none
      | some m' => processConstraints f cs m'

/-- The eleven `ValueType`s in their numeric order; `Object.entries` of
`constraintsByType` yields its integer-like keys in this (ascending) order. -/
def orderedValueTypes : List ValueType :=
  [.exception, .any, .undefined, .null, .boolean, .number, .string, .array,
    .object, .function, .symbol]

/-- The generic, payload-free constraint of a type: `{ type: +type }` as
rebuilt for a generalized bucket.  The types for which no constraint variant
exists (Exception, String, Array, Symbol) can never be generalized (their
buckets are never touched); they are mapped to the generic Any constraint to
keep the function total. -/
def genericOf : ValueType → ValueConstraint
  | .any => .anyC
  | .undefined => .undefinedC
  | .null => .nullC
  | .boolean => .booleanC none
  | .number => .numberC none
  | .object => .objectC none
  | .function => .functionC none none none
  | _ => .anyC

/-- The constraints one bucket contributes to the rebuilt Value:
`constraints === true ? [{ type: +type }] : constraints`. -/
def bucketConstraints (t : ValueType) : Bucket → List ValueConstraint
  | .unset => []
  | .generalized => [genericOf t]
  | .specifics l => l

/-- The final `Object.entries(constraintsByType).flatMap(...)` rebuild. -/
def rebuild (m : BucketMap) : List ValueConstraint :=
  orderedValueTypes.foldr (fun t acc => bucketConstraints t (m t) ++ acc) []

/-- `applyToValue` of the source for a pure callback: apply the callback to
every constraint, merge the results by type with deduplication and
generalization, short-circuiting to a single generic Any. -/
def applyToValue (value : Value) (f : ValueConstraint → List ValueConstraint) : Value :=
  match processConstraints f value.constraints emptyBuckets with
  | none => Value.mk [.anyC]
  | some m => Value.mk (rebuild m)

mutual
/-- Size of a syntax tree, bounding the evaluator's recursion depth (every
recursive call of `execNode` and its loops descends into a strictly smaller
piece of the tree). -/
def nodeSize : (n : Node) → Nat
  | .sourceFile stmts => nodeListSize stmts + 1
  | .variableStatement _ _ decls => declListSize decls + 1
  | .callExpression e args => nodeSize e + nodeListSize args + 1
  | .expressionStatement e => nodeSize e + 1
  | .binaryExpression l _ r => nodeSize l + nodeSize r + 1
  | .propertyAccessExpression e _ => nodeSize e + 1
  | .numericLiteral _ => 1
  | .identifier _ => 1
  | .nullKeyword => 1
  | .trueKeyword => 1
  | .falseKeyword => 1
  | .arrayBindingPattern => 1
  | .objectBindingPattern => 1
  | .unknownNode => 1
termination_by structural n => n
/-- Size of a statement or argument list. -/
def nodeListSize : (l : List Node) → Nat
  | [] => 1
  | n :: ns => nodeSize n + nodeListSize ns + 1
termination_by structural l => l
/-- Size of a declaration list. -/
def declListSize : (l : List VarDecl) → Nat
  | [] => 1
  | .mk name init :: ds => nodeSize name + optNodeSize init + declListSize ds + 1
termination_by structural l => l
/-- Size of an optional initializer. -/
def optNodeSize : (o : Option Node) → Nat
  | none => 1
  | some n => nodeSize n + 1
termination_by structural o => o
end

/-- The engine-fatal error of the source (`class CompileError extends Error`):
a message plus the offending syntax node for diagnostic placement. -/
structure CompileError where
  message : String
  node : Option Node

/-- `const unsupported = (node) => new CompileError("Unsupported JS code encountered", node)`. -/
def unsupported (node : Node) : CompileError :=
  ⟨"Unsupported JS code encountered", some node⟩

/-- One record of the scope store: `class Scope`, with the parent pointer
modelled as an index into the store and the bindings `Map` as an ordered
association list (`Map.set` updates in place or appends). -/
structure ScopeRec where
  parent : Option Nat
  bindings : List (String × Value)

/-- `bindings.has(name)`. -/
def bindingsHas (b : List (String × Value)) (name : String) : Bool :=
  b.any (fun kv => kv.1 == name)

/-- `bindings.get(name)` (a stored `Value` is always truthy). -/
def bindingsGet (b : List (String × Value)) (name : String) : Option Value :=
  (b.find? (fun kv => kv.1 == name)).map (fun kv => kv.2)

/-- `bindings.set(name, value)`: overwrite the existing entry in place, or
append a new one. -/
def bindingsSet (b : List (String × Value)) (name : String) (v : Value) :
    List (String × Value) :=
  match b with
  | [] => [(name, v)]
  | (k, w) :: rest =>
      if k == name then (k, v) :: rest else (k, w) :: bindingsSet rest name v

/-- `scope.bindings.set(name, value)` on the store: update the record at
index `sid` (out-of-range indices leave the store unchanged; they never occur
during evaluation). -/
def setBindingAt (store : List ScopeRec) (sid : Nat) (name : String) (v : Value) :
    List ScopeRec :=
  match store[sid]? with
  | some r => store.set sid { r with bindings := bindingsSet r.bindings name v }
  | none => store

/-- The loop of `Scope.lookupVar`, walking parent links; the fuel bounds the
walk (the store's size suffices for any parent-decreasing chain). -/
def lookupVarGo (store : List ScopeRec) (name : String) : Nat → Nat → Option Value
  | 0, _ => none
  | fuel + 1, sid =>
      match store[sid]? with
      | none => none
      | some r =>
          match bindingsGet r.bindings name with
          | some value => some value
          | none =>
              match r.parent with
              | some p => lookupVarGo store name fuel p
              | none => none

/-- `Scope.lookupVar(name)`: search the scope and its ancestors, returning
the first bound Value. -/
def lookupVar (store : List ScopeRec) (sid : Nat) (name : String) : Option Value :=
  lookupVarGo store name store.length sid

/-- The loop of `Scope.setVar`:
`while (scope.parent && !scope.bindings.has(name)) scope = scope.parent;`
followed by `scope.bindings.set(name, value)`. -/
def setVarGo (store : List ScopeRec) (name : String) (v : Value) :
    Nat → Nat → List ScopeRec
  | 0, sid => setBindingAt store sid name v
  | fuel + 1, sid =>
      match store[sid]? with
      | none => store
      | some r =>
          match r.parent with
          | none => setBindingAt store sid name v
          | some p =>
              if bindingsHas r.bindings name then setBindingAt store sid name v
              else setVarGo store name v fuel p

/-- `Scope.setVar(name, value)`: rebind in the nearest scope that already has
a binding, else at the root. -/
def setVar (store : List ScopeRec) (sid : Nat) (name : String) (v : Value) :
    List ScopeRec :=
  setVarGo store name v store.length sid

/-- One recorded side effect: `sideEffects.push({ args })`. -/
structure SideEffect where
  args : List Value

/-- The mutable state of one `compile` run: the scope store and the
`sideEffects` array. -/
structure EvalState where
  scopes : List ScopeRec
  sideEffects : List SideEffect

/-- The evaluator's effect monad: state threading plus the thrown
`CompileError` channel.  The state is returned even on a throw — mutations of
the captured `sideEffects` array and scope maps survive a JS exception. -/
def EvalM (α : Type) : Type :=
  EvalState → Except CompileError α × EvalState

/-- Monadic return for `EvalM`. -/
def pureE {α : Type} (a : α) : EvalM α := fun σ => (.ok a, σ)

/-- Monadic bind for `EvalM`; a thrown error propagates, keeping the state at
the point of the throw. -/
def bindE {α β : Type} (x : EvalM α) (f : α → EvalM β) : EvalM β := fun σ =>
  match x σ with
  | (.ok a, σ') => f a σ'
  | (.error e, σ') => (.error e, σ')

/-- `throw` of a `CompileError`. -/
def throwE {α : Type} (e : CompileError) : EvalM α := fun σ => (.error e, σ)

/-- Read-only access to `scope.lookupVar` against the current store. -/
def lookupVarM (sid : Nat) (name : String) : EvalM (Option Value) := fun σ =>
  (.ok (lookupVar σ.scopes sid name), σ)

/-- `scope.setVar(name, value)` as a state mutation. -/
def setVarM (sid : Nat) (name : String) (v : Value) : EvalM Unit := fun σ =>
  (.ok (), { σ with scopes := setVar σ.scopes sid name v })

/-- `scope.bindings.set(name, value)` (direct binding in the current scope)
as a state mutation. -/
def setBindingM (sid : Nat) (name : String) (v : Value) : EvalM Unit := fun σ =>
  (.ok (), { σ with scopes := setBindingAt σ.scopes sid name v })

/-- `sideEffects.push({ args })` as a state mutation. -/
def pushSideEffect (args : List Value) : EvalM Unit := fun σ =>
  (.ok (), { σ with sideEffects := σ.sideEffects ++ [⟨args⟩] })

/-- The evaluator's per-node outcome (`interface ExecResult`): at most one of
a produced value and a thrown abstract-exception value, plus the resolved
name when the node was a bare identifier. -/
structure ExecResult where
  value : Option Value := none
  exception : Option Value := none
  identifier : Option String := none

/-- The loop body of `applyToValue` for an effectful callback (the source's
callback may throw and push side effects): constraints are consumed left to
right, each result list is merged by `processList`, and an Any result
short-circuits the whole loop. -/
def applyToValueGo (cb : ValueConstraint → EvalM (List ValueConstraint)) :
    List ValueConstraint → BucketMap → EvalM Value
  | [], m => pureE (Value.mk (rebuild m))
  | c :: cs, m =>
      bindE (cb c) fun results =>
        match processList m results with
        | none => pureE (Value.mk [.anyC])
        | some m' => applyToValueGo cb cs m'

/-- `applyToValue` as invoked by the evaluator, with the effectful callback. -/
def applyToValueM (value : Value) (cb : ValueConstraint → EvalM (List ValueConstraint)) :
    EvalM Value :=
  applyToValueGo cb value.constraints emptyBuckets

/-- The callback the call-expression case passes to `applyToValue`: a
non-Function constraint is an unsupported call; a handler-bearing Function
constraint records a side effect when flagged and contributes the handler's
result constraints; without a handler, the `if (constraint.node)` block is an
empty placeholder (`// TODO`) and control falls through to contribute the
generic Any constraint. -/
def callExpressionTransform (node : Node) (args : List Value)
    (constraint : ValueConstraint) : EvalM (List ValueConstraint) :=
  match constraint with
  | .functionC hs h _ =>
      match h with
      | some handler =>
          bindE (if hs = some true then pushSideEffect args else pureE ())
            fun _ => pureE (Handler.run handler args).constraints
      | none => pureE [.anyC]
  | _ => throwE ⟨"Called value may not be a function", some node⟩

/-- `constraint.props[name]` of the property-access callback (a JS record
lookup on an object literal with unique keys). -/
def propsFind (props : List (String × Value)) (name : String) : Option Value :=
  match props with
  | [] => none
  | (k, v) :: rest => if k == name then some v else propsFind rest name

/-- The callback the property-access case passes to `applyToValue`: a
non-Object constraint is unsupported; an Object constraint without a `props`
map contributes the generic Any; otherwise
`constraint.props[name]?.constraints ?? []`. -/
def propertyAccessTransform (node : Node) (name : String)
    (constraint : ValueConstraint) : EvalM (List ValueConstraint) :=
  match constraint with
  | .objectC props =>
      match props with
      | none => pureE [.anyC]
      | some p =>
          match propsFind p name with
          | some v => pureE v.constraints
          | none => pureE []
  | _ => throwE ⟨"Only objects support property access", some node⟩

/-- `(declaration.name as ts.Identifier).escapedText as string`: the declared
name once binding patterns have been ruled out (a non-identifier here cannot
be produced by the parser; the cast is modelled by a default). -/
def declName : Node → String
  | .identifier s => s
  | _ => ""

mutual
/-- The recursive evaluator `execNode(node, scope)` of the source, dispatching
on the syntax-node kind; `sid` is the current scope's index in the store and
the first argument is recursion fuel (the source recursion is structural on
the finite tree; `compile` supplies enough fuel that exhaustion never occurs). -/
def execNode : Nat → Node → Nat → EvalM ExecResult
  | 0, _, _ => throwE ⟨"fuel exhausted", none⟩
  | fuel + 1, node, sid =>
      match node with
      | .sourceFile stmts =>
          bindE (execStatements fuel stmts sid) fun _ => pureE {}
      | .variableStatement isLet isConst decls =>
          if isLet || isConst then throwE (unsupported node)
          else execDeclarations fuel decls sid
      | .callExpression f args =>
          bindE (execNode fuel f sid) fun expression =>
            match expression.exception, expression.value with
            | none, some callee =>
                bindE (execArguments fuel args sid) fun argsOut =>
                  match argsOut with
                  | .inl bad => pureE bad
                  | .inr argVals =>
                      bindE (applyToValueM callee (callExpressionTransform node argVals))
                        fun v => pureE { value := some v }
            | _, _ => pureE expression
      | .expressionStatement e => execNode fuel e sid
      | .binaryExpression lhs isAssign rhs =>
          if isAssign then
            match lhs with
            | .identifier name =>
                bindE (lookupVarM sid name) fun found =>
                  match found with
                  | none => pureE { exception := some (Value.mk [.undefinedC]) }
                  | some _ =>
                      bindE (execNode fuel rhs sid) fun result =>
                        match result.exception, result.value with
                        | none, some v => bindE (setVarM sid name v) fun _ => pureE result
                        | _, _ => pureE result
            | _ => throwE (unsupported lhs)
          else throwE (unsupported node)
      | .propertyAccessExpression e name =>
          bindE (execNode fuel e sid) fun expression =>
            match expression.exception, expression.value with
            | none, some recv =>
                bindE (applyToValueM recv (propertyAccessTransform node name))
                  fun v => pureE { value := some v }
            | _, _ => pureE expression
      | .numericLiteral n => pureE { value := some (Value.mk [.numberC (some n)]) }
      | .identifier text =>
          if text == "undefined" then pureE { value := some (Value.mk [.undefinedC]) }
          else
            bindE (lookupVarM sid text) fun found =>
              match found with
              | none => pureE { exception := some (Value.mk [.undefinedC]) }
              | some value => pureE { identifier := some text, value := some value }
      | .nullKeyword => pureE { value := some (Value.mk [.nullC]) }
      | .trueKeyword => pureE { value := some (Value.mk [.booleanC (some true)]) }
      | .falseKeyword => pureE { value := some (Value.mk [.booleanC (some false)]) }
      | _ => throwE (unsupported node)
/-- The statement loop of the source-file case: execute each statement in
order, stopping early (without executing the rest) on the first result that
carries a thrown exception. -/
def execStatements : Nat → List Node → Nat → EvalM Unit
  | 0, _, _ => throwE ⟨"fuel exhausted", none⟩
  | _ + 1, [], _ => pureE ()
  | fuel + 1, s :: rest, sid =>
      bindE (execNode fuel s sid) fun result =>
        if result.exception.isSome then pureE ()
        else execStatements fuel rest sid
/-- The declaration loop of the variable-statement case: reject destructuring
patterns, evaluate the initializer (propagating its exception as the
statement's result), default a missing value to Undefined, and bind directly
in the current scope. -/
def execDeclarations : Nat → List VarDecl → Nat → EvalM ExecResult
  | 0, _, _ => throwE ⟨"fuel exhausted", none⟩
  | _ + 1, [], _ => pureE {}
  | fuel + 1, .mk nameNode init :: rest, sid =>
      match nameNode with
      | .arrayBindingPattern => throwE ⟨"destructuring is not supported", some nameNode⟩
      | .objectBindingPattern => throwE ⟨"destructuring is not supported", some nameNode⟩
      | _ =>
          match init with
          | some initializer =>
              bindE (execNode fuel initializer sid) fun result =>
                if result.exception.isSome then pureE result
                else
                  bindE (setBindingM sid (declName nameNode)
                      (match result.value with
                        | some v => v
                        | none => Value.mk [.undefinedC])) fun _ =>
                    execDeclarations fuel rest sid
          | none =>
              bindE (setBindingM sid (declName nameNode) (Value.mk [.undefinedC])) fun _ =>
                execDeclarations fuel rest sid
/-- The argument loop of the call-expression case: evaluate arguments left to
right, stopping at (and propagating) the first failing result. -/
def execArguments : Nat → List Node → Nat → EvalM (ExecResult ⊕ List Value)
  | 0, _, _ => throwE ⟨"fuel exhausted", none⟩
  | _ + 1, [], _ => pureE (.inr [])
  | fuel + 1, a :: rest, sid =>
      bindE (execNode fuel a sid) fun result =>
        match result.exception, result.value with
        | none, some v =>
            bindE (execArguments fuel rest sid) fun restOut =>
              match restOut with
              | .inl bad => pureE (.inl bad)
              | .inr vs => pureE (.inr (v :: vs))
        | _, _ => pureE (.inl result)
end

/-- The Value bound to `console.log`: a side-effecting Function constraint
with the native logging handler and no node reference. -/
def consoleLogValue : Value :=
  Value.mk [.functionC (some true) (some .consoleLog) none]

/-- The Value bound to `console`: an Object constraint whose single known
property `log` holds `consoleLogValue`. -/
def consoleValue : Value :=
  Value.mk [.objectC (some [("log", consoleLogValue)])]

/-- `createGlobalScope()`: a root scope (no parent) whose only binding is
`console`. -/
def createGlobalScope : ScopeRec :=
  ⟨none, [("console", consoleValue)]⟩

/-- The state at the start of a `compile` run: the fresh global scope at
index 0 and an empty side-effect list. -/
def initialEvalState : EvalState :=
  ⟨[createGlobalScope], []⟩

/-- Diagnostic severity (`ts.DiagnosticCategory`; this engine only ever emits
`error`). -/
inductive DiagnosticCategory where
  | warning
  | error
deriving DecidableEq

/-- A reported diagnostic: message, the node whose source span it references,
severity, and the fixed placeholder code `"Z"`. -/
structure Diagnostic where
  message : String
  node : Option Node
  category : DiagnosticCategory
  code : String

/-- `addDiagnostic(message, node)` with the default `error` category and the
fixed code `"Z"`. -/
def mkDiagnostic (message : String) (node : Option Node) : Diagnostic :=
  ⟨message, node, .error, "Z"⟩

/-- `interface CompileResult`. -/
structure CompileResult where
  diagnostics : List Diagnostic

/-- The whole evaluation of one source tree: `execNode(sourceFile, globalScope)`
run against a fresh global scope and side-effect list, returning both the
outcome and the final mutable state (which survives a thrown error). -/
def runProgram (sf : Node) : Except CompileError ExecResult × EvalState :=
  execNode (nodeSize sf + 1) sf 0 initialEvalState

/-- `compile(code)` (the parse step is external): run the evaluator inside
the `try`/`catch` boundary; a thrown `CompileError` is converted into exactly
one diagnostic, and a completed run yields none. -/
def compile (sf : Node) : CompileResult :=
  match (runProgram sf).1 with
  | .error e => ⟨[mkDiagnostic e.message e.node]⟩
  | .ok _ => ⟨[]⟩

/-- The subsequence of a result stream landing in the bucket of type `t`. -/
def typeFilter (t : ValueType) (rs : List ValueConstraint) : List ValueConstraint :=
  rs.filter (fun c => constraintType c == t)

/-- A reachable specifics bucket reproduces itself when its contents are
re-processed from an empty bucket (the key step for idempotence). -/
def GoodB (b : Bucket) : Prop :=
  ∀ l, b = .specifics l → List.foldl tstep .unset l = .specifics l

/-- A constraint already absorbed by a bucket: the bucket is generalized, or
holds the constraint among its specifics. -/
def coveredBy (b : Bucket) (c : ValueConstraint) : Prop :=
  b = .generalized ∨ ∃ l, b = .specifics l ∧ c ∈ l

/-- A reachable specifics bucket holds pairwise distinct constraints. -/
def NodupB (b : Bucket) : Prop :=
  ∀ l, b = .specifics l → l.Nodup

/-- The identity join: `applyToValue` where every constraint maps to the
one-element sequence containing itself. -/
def joinId (v : Value) : Value :=
  applyToValue v fun c => [c]

/-- The lattice ordering the spec's "observationally equal" refers to: a
constraint is subsumed by an equal one, by the generic Any, and by the
generic (payload-free) constraint of its own type. -/
def Subsumes (c' c : ValueConstraint) : Prop :=
  c' = c ∨ c' = .anyC ∨ (payloadFree c' = true ∧ constraintType c' = constraintType c)

/-- Well-formedness of the scope store: parent links point to earlier records,
so parent chains are strictly decreasing, finite and acyclic (the source
builds exactly such stores: a child scope is created after its parent). -/
def WFStore (store : List ScopeRec) : Prop :=
  ∀ (i : Nat) (r : ScopeRec) (p : Nat), store[i]? = some r → r.parent = some p → p < i

/-- The scope at which the `setVar` walk started at `sid` stops: the nearest
scope in the parent chain (starting at `sid`) that already has a binding for
`name`, or the chain's root when no scope in the chain has one. -/
inductive ResolvesTo (store : List ScopeRec) (name : String) : Nat → Nat → Prop where
  | here (sid : Nat) (r : ScopeRec) (hr : store[sid]? = some r)
      (hb : bindingsHas r.bindings name = true) : ResolvesTo store name sid sid
  | parent (sid : Nat) (r : ScopeRec) (p t : Nat) (hr : store[sid]? = some r)
      (hb : bindingsHas r.bindings name = false) (hp : r.parent = some p)
      (ht : ResolvesTo store name p t) : ResolvesTo store name sid t
  | root (sid : Nat) (r : ScopeRec) (hr : store[sid]? = some r)
      (hp : r.parent = none) : ResolvesTo store name sid sid

/-- The call expression `console.log(1)`. -/
def consoleLogCallNode : Node :=
  Node.callExpression
    (Node.propertyAccessExpression (Node.identifier "console") "log")
    [Node.numericLiteral 1]

/-- The parsed source `console.log(1);`. -/
def consoleLogProgram : Node :=
  Node.sourceFile [Node.expressionStatement consoleLogCallNode]

/-- The statement `y;` — a read of an identifier bound nowhere. -/
def unboundRead : Node :=
  Node.expressionStatement (Node.identifier "y")

/-- A program whose first statement reads an unbound identifier and whose
second statement would raise an unsupported-construct failure if it were ever
executed. -/
def unboundProgram : Node :=
  Node.sourceFile [unboundRead, Node.unknownNode]

/-- A three-scope chain S0 ⊂ S1 ⊂ S2 with `x` bound only in the root S0. -/
def chainStore : List ScopeRec :=
  [⟨none, [("x", Value.mk [.numberC (some 1)])]⟩, ⟨some 0, []⟩, ⟨some 1, []⟩]

/-- `chainStore` after `setVar("x", 2-Value)` from S2: only S0's entry is
rebound; S1 and S2 still have no local `x`. -/
def chainStoreAfter : List ScopeRec :=
  [⟨none, [("x", Value.mk [.numberC (some 2)])]⟩, ⟨some 0, []⟩, ⟨some 1, []⟩]

/-- A state whose global scope binds `f` to a Value holding a side-effecting
handler-bearing Function constraint followed by a Number constraint. -/
def mixedCalleeState : EvalState :=
  ⟨[⟨none, [("f", Value.mk
      [.functionC (some true) (some .consoleLog) none, .numberC (some 2)])]⟩], []⟩

/-- Soundness of the structural comparison: `true` only on equal values.  In
the source the object-valued fields are compared by JS reference equality,
which likewise holds only between equal (indeed identical) records. -/
theorem valueBeq_sound_all :
    (∀ a b, valueBeq a b = true → a = b) ∧
    (∀ a b, constraintListBeq a b = true → a = b) ∧
    (∀ a b, constraintBeq a b = true → a = b) ∧
    (∀ a b, propsBeq a b = true → a = b) := by
  refine valueBeq.mutual_induct
    (fun a b => valueBeq a b = true → a = b)
    (fun a b => constraintListBeq a b = true → a = b)
    (fun a b => constraintBeq a b = true → a = b)
    (fun a b => propsBeq a b = true → a = b)
    ?_ ?_ ?_ ?_ ?_ ?_ ?_ ?_ ?_ ?_ ?_ ?_ ?_ ?_ ?_ ?_
  · intro cs ds ih h
    rw [valueBeq] at h
    rw [ih h]
  · intro _; rfl
  · intro c cs d ds ih1 ih2 h
    rw [constraintListBeq, Bool.and_eq_true] at h
    rw [ih1 h.1, ih2 h.2]
  · intro x y h1 h2 h
    cases x <;> cases y <;> simp_all [constraintListBeq]
  · intro _; rfl
  · intro _; rfl
  · intro _; rfl
  · intro v w h
    rw [constraintBeq] at h
    rw [eq_of_beq h]
  · intro v w h
    rw [constraintBeq] at h
    rw [eq_of_beq h]
  · intro _; rfl
  · intro p q ih h
    rw [constraintBeq] at h
    rw [ih h]
  · intro h1 s1 n1 h2 s2 n2 h
    rw [constraintBeq, Bool.and_eq_true, Bool.and_eq_true] at h
    rw [eq_of_beq h.1.1, eq_of_beq h.1.2, eq_of_beq h.2]
  · intro x y e1 e2 e3 e4 e5 e6 e7 e8 h
    cases x <;> cases y <;> simp_all [constraintBeq]
  · intro _; rfl
  · intro k v ps l w qs ih1 ih2 h
    rw [propsBeq, Bool.and_eq_true, Bool.and_eq_true] at h
    rw [eq_of_beq h.1.1, ih1 h.1.2, ih2 h.2]
  · intro x y h1 h2 h
    cases x <;> cases y <;> simp_all [propsBeq]

/-- Reflexivity of the structural comparison (a JS object is `===` itself). -/
theorem valueBeq_refl_all :
    (∀ a, valueBeq a a = true) ∧
    (∀ a, constraintListBeq a a = true) ∧
    (∀ a, constraintBeq a a = true) ∧
    ∀ a, propsBeq a a = true := by
  have h := valueBeq.mutual_induct
    (fun a b => a = b → valueBeq a b = true)
    (fun a b => a = b → constraintListBeq a b = true)
    (fun a b => a = b → constraintBeq a b = true)
    (fun a b => a = b → propsBeq a b = true)
    (by intro cs ds ih h; cases h; rw [valueBeq]; exact ih rfl)
    (by intro _; rw [constraintListBeq])
    (by intro c cs d ds ih1 ih2 h
        injection h with h1 h2
        cases h1; cases h2
        rw [constraintListBeq, Bool.and_eq_true]; exact ⟨ih1 rfl, ih2 rfl⟩)
    (by intro x y e1 e2 h
        cases h
        cases x with
        | nil => exact (e1 rfl rfl).elim
        | cons c cs => exact (e2 c cs c cs rfl rfl).elim)
    (by intro _; rw [constraintBeq])
    (by intro _; rw [constraintBeq])
    (by intro _; rw [constraintBeq])
    (by intro v w h; cases h; simp [constraintBeq])
    (by intro v w h; cases h; simp [constraintBeq])
    (by intro _; rw [constraintBeq])
    (by intro p q ih h; injection h with h1; cases (Option.some.inj h1); rw [constraintBeq]; exact ih rfl)
    (by intro h1 s1 n1 h2 s2 n2 h
        injection h with e1 e2 e3
        cases e1; cases e2; cases e3
        simp [constraintBeq])
    (by intro x y e1 e2 e3 e4 e5 e6 e7 e8 h
        cases h
        cases x with
        | anyC => exact (e1 rfl rfl).elim
        | undefinedC => exact (e2 rfl rfl).elim
        | nullC => exact (e3 rfl rfl).elim
        | booleanC v => exact (e4 v v rfl rfl).elim
        | numberC v => exact (e5 v v rfl rfl).elim
        | objectC o =>
            cases o with
            | none => exact (e6 rfl rfl).elim
            | some p => exact (e7 p p rfl rfl).elim
        | functionC a b c => exact (e8 a b c a b c rfl rfl).elim)
    (by intro _; rw [propsBeq])
    (by intro k v ps l w qs ih1 ih2 h
        injection h with h1 h2
        injection h1 with h3 h4
        cases h3; cases h4; cases h2
        rw [propsBeq, Bool.and_eq_true, Bool.and_eq_true]
        exact ⟨⟨by simp, ih1 rfl⟩, ih2 rfl⟩)
    (by intro x y e1 e2 h
        cases h
        cases x with
        | nil => exact (e1 rfl rfl).elim
        | cons p ps => exact (e2 p.1 p.2 ps p.1 p.2 ps (by simp) (by simp)).elim)
  exact ⟨fun a => h.1 a a rfl, fun a => h.2.1 a a rfl, fun a => h.2.2.1 a a rfl,
    fun a => h.2.2.2 a a rfl⟩

theorem constraintType_eq_any_iff (c : ValueConstraint) :
    constraintType c = ValueType.any ↔ c = .anyC := by
  cases c <;> simp [constraintType]

theorem payloadFree_genericOf (t : ValueType) : payloadFree (genericOf t) = true := by
  cases t <;> rfl

theorem constraintType_genericOf (c : ValueConstraint) :
    constraintType (genericOf (constraintType c)) = constraintType c := by
  cases c <;> rfl

theorem payloadFree_eq_genericOf {r : ValueConstraint} (h : payloadFree r = true) :
    r = genericOf (constraintType r) := by
  cases r with
  | anyC => rfl
  | undefinedC => rfl
  | nullC => rfl
  | booleanC v => cases v <;> simp_all [payloadFree, fieldCount, optCount, genericOf, constraintType]
  | numberC v => cases v <;> simp_all [payloadFree, fieldCount, optCount, genericOf, constraintType]
  | objectC p => cases p <;> simp_all [payloadFree, fieldCount, optCount, genericOf, constraintType]
  | functionC hs hd nd =>
      cases hs <;> cases hd <;> cases nd <;>
        simp_all [payloadFree, fieldCount, optCount, genericOf, constraintType]

theorem entriesMatch_refl (r : ValueConstraint) : entriesMatch r r = true := by
  cases r with
  | anyC => rfl
  | undefinedC => rfl
  | nullC => rfl
  | booleanC v => cases v <;> simp [entriesMatch]
  | numberC v => cases v <;> simp [entriesMatch]
  | objectC p =>
      cases p with
      | none => rfl
      | some pr => simp [entriesMatch, valueBeq_refl_all.2.2.2 pr]
  | functionC hs hd nd =>
      cases hs <;> cases hd <;> cases nd <;> simp [entriesMatch, optFieldMatch]

theorem identical_refl (r : ValueConstraint) : identical r r = true := by
  simp [identical, entriesMatch_refl]

theorem identical_sound {r c2 : ValueConstraint} (hp : payloadFree r = false)
    (h : identical r c2 = true) : r = c2 := by
  rw [identical, Bool.and_eq_true] at h
  obtain ⟨hc, he⟩ := h
  cases r with
  | anyC => simp [payloadFree, fieldCount] at hp
  | undefinedC => simp [payloadFree, fieldCount] at hp
  | nullC => simp [payloadFree, fieldCount] at hp
  | booleanC v =>
      cases v with
      | none => simp [payloadFree, fieldCount, optCount] at hp
      | some b =>
          cases c2 <;> try simp_all [entriesMatch]
          case booleanC w =>
            cases w with
            | none => simp [entriesMatch] at he
            | some b2 => simp_all [entriesMatch]
  | numberC v =>
      cases v with
      | none => simp [payloadFree, fieldCount, optCount] at hp
      | some n =>
          cases c2 <;> try simp_all [entriesMatch]
          case numberC w =>
            cases w with
            | none => simp [entriesMatch] at he
            | some n2 => simp_all [entriesMatch]
  | objectC p =>
      cases p with
      | none => simp [payloadFree, fieldCount, optCount] at hp
      | some pr =>
          cases c2 <;> try simp_all [entriesMatch]
          case objectC q =>
            cases q with
            | none => simp [entriesMatch] at he
            | some qr =>
                simp only [entriesMatch] at he
                rw [valueBeq_sound_all.2.2.2 pr qr he]
  | functionC hs hd nd =>
      cases c2 with
      | functionC hs2 h2 nd2 =>
          cases hs <;> cases hd <;> cases nd <;>
            simp_all [payloadFree, fieldCount, optCount, entriesMatch, optFieldMatch] <;>
            (cases hs2 <;> cases h2 <;> cases nd2 <;>
              simp_all [optFieldMatch, fieldCount, optCount])
      | anyC =>
          cases hs <;> cases hd <;> cases nd <;>
            simp_all [payloadFree, fieldCount, optCount, entriesMatch]
      | undefinedC =>
          cases hs <;> cases hd <;> cases nd <;>
            simp_all [payloadFree, fieldCount, optCount, entriesMatch]
      | nullC =>
          cases hs <;> cases hd <;> cases nd <;>
            simp_all [payloadFree, fieldCount, optCount, entriesMatch]
      | booleanC w =>
          cases hs <;> cases hd <;> cases nd <;>
            simp_all [payloadFree, fieldCount, optCount, entriesMatch]
      | numberC w =>
          cases hs <;> cases hd <;> cases nd <;>
            simp_all [payloadFree, fieldCount, optCount, entriesMatch]
      | objectC w =>
          cases hs <;> cases hd <;> cases nd <;>
            simp_all [payloadFree, fieldCount, optCount, entriesMatch]

theorem insertConstraint_self (m : BucketMap) (r : ValueConstraint) :
    insertConstraint m r (constraintType r) = tstep (m (constraintType r)) r := by
  simp [insertConstraint, updateBucket]

theorem insertConstraint_other (m : BucketMap) (r : ValueConstraint) (t : ValueType)
    (h : t ≠ constraintType r) : insertConstraint m r t = m t := by
  simp [insertConstraint, updateBucket, h]

theorem processList_eq_none_iff (m : BucketMap) (rs : List ValueConstraint) :
    processList m rs = none ↔ ValueConstraint.anyC ∈ rs := by
  induction rs generalizing m with
  | nil => simp [processList]
  | cons r rest ih =>
      by_cases hr : constraintType r = ValueType.any
      · rw [constraintType_eq_any_iff] at hr
        subst hr
        simp [processList, constraintType]
      · have hr' : ValueConstraint.anyC ≠ r := by
          intro e
          exact hr (by rw [← e]; rfl)
        rw [processList, if_neg hr, ih]
        simp [List.mem_cons, hr']

theorem processList_some_bucket (m m' : BucketMap) (rs : List ValueConstraint)
    (h : processList m rs = some m') (t : ValueType) :
    m' t = List.foldl tstep (m t) (typeFilter t rs) := by
  induction rs generalizing m with
  | nil =>
      rw [processList] at h
      cases h
      simp [typeFilter]
  | cons r rest ih =>
      by_cases hr : constraintType r = ValueType.any
      · rw [processList, if_pos hr] at h
        exact absurd h (by simp)
      · rw [processList, if_neg hr] at h
        rw [ih (insertConstraint m r) h]
        by_cases ht : constraintType r = t
        · subst ht
          simp [typeFilter, List.filter_cons, insertConstraint_self]
        · have : (constraintType r == t) = false := by
            simp [ht]
          simp [typeFilter, List.filter_cons, this,
            insertConstraint_other m r t (fun e => ht e.symm)]

theorem processList_append (m : BucketMap) (xs ys : List ValueConstraint) :
    processList m (xs ++ ys) =
      match processList m xs with
      | none => none
      | some m' => processList m' ys := by
  induction xs generalizing m with
  | nil => simp [processList]
  | cons r rest ih =>
      by_cases hr : constraintType r = ValueType.any
      · simp [processList, hr]
      · simp [processList, hr, ih]

theorem processConstraints_eq_flatMap (f : ValueConstraint → List ValueConstraint)
    (cs : List ValueConstraint) (m : BucketMap) :
    processConstraints f cs m = processList m (cs.flatMap f) := by
  induction cs generalizing m with
  | nil => simp [processConstraints, processList]
  | cons c cs ih =>
      rw [List.flatMap_cons, processList_append, processConstraints]
      cases h : processList m (f c) with
      | none => rfl
      | some m1 => exact ih m1

theorem tstep_ne_unset (b : Bucket) (r : ValueConstraint) : tstep b r ≠ .unset := by
  cases b with
  | unset => simp [tstep]
  | generalized => simp [tstep]
  | specifics l =>
      rw [tstep]
      split
      · simp
      · split <;> simp

theorem foldl_tstep_generalized (xs : List ValueConstraint) :
    List.foldl tstep .generalized xs = .generalized := by
  induction xs with
  | nil => rfl
  | cons r rest ih => simpa [List.foldl_cons, tstep] using ih

theorem foldl_tstep_eq_unset {xs : List ValueConstraint} {b : Bucket}
    (h : List.foldl tstep b xs = .unset) : b = .unset ∧ xs = [] := by
  induction xs generalizing b with
  | nil => exact ⟨h, rfl⟩
  | cons r rest ih =>
      rw [List.foldl_cons] at h
      exact absurd (ih h).1 (tstep_ne_unset b r)

theorem foldl_tstep_specifics_subset (xs : List ValueConstraint) :
    ∀ (b : Bucket) (l' : List ValueConstraint), List.foldl tstep b xs = .specifics l' →
      ∀ c ∈ l', (∃ l0, b = .specifics l0 ∧ c ∈ l0) ∨ c ∈ xs := by
  induction xs with
  | nil =>
      intro b l' h c hc
      exact .inl ⟨l', h, hc⟩
  | cons r rest ih =>
      intro b l' h c hc
      rw [List.foldl_cons] at h
      rcases ih (tstep b r) l' h c hc with ⟨l0, hl0, hcl0⟩ | hrest
      · cases b with
        | unset =>
            rw [tstep] at hl0
            cases hl0
            exact .inr (List.mem_cons.2 (.inl (by simpa using hcl0)))
        | generalized => exact absurd hl0 (by simp [tstep])
        | specifics l =>
            rw [tstep] at hl0
            split at hl0
            · exact absurd hl0 (by simp)
            · split at hl0
              · cases hl0
                exact .inl ⟨_, rfl, hcl0⟩
              · cases hl0
                rcases List.mem_append.1 hcl0 with h1 | h1
                · exact .inl ⟨_, rfl, h1⟩
                · exact .inr (List.mem_cons.2 (.inl (List.mem_singleton.1 h1)))
      · exact .inr (List.mem_cons_of_mem r hrest)

theorem foldl_tstep_generalized_source (xs : List ValueConstraint) :
    ∀ b : Bucket, List.foldl tstep b xs = .generalized →
      b = .generalized ∨ ∃ r ∈ xs, payloadFree r = true := by
  induction xs with
  | nil => exact fun b h => .inl h
  | cons r rest ih =>
      intro b h
      rw [List.foldl_cons] at h
      rcases ih (tstep b r) h with h1 | ⟨r', hr', hp⟩
      · cases b with
        | unset => exact absurd h1 (by simp [tstep])
        | generalized => exact .inl rfl
        | specifics l =>
            rw [tstep] at h1
            split at h1
            · next hpf => exact .inr ⟨r, List.mem_cons_self r rest, hpf⟩
            · split at h1 <;> exact absurd h1 (by simp)
      · exact .inr ⟨r', List.mem_cons_of_mem r hr', hp⟩

theorem goodB_unset : GoodB .unset := by
  intro l h
  exact absurd h (by simp)

theorem tstep_good {b : Bucket} (hb : GoodB b) (r : ValueConstraint) :
    GoodB (tstep b r) := by
  intro l' h'
  cases b with
  | unset =>
      rw [tstep] at h'
      cases h'
      simp [List.foldl_cons, tstep]
  | generalized => exact absurd h' (by simp [tstep])
  | specifics l =>
      rw [tstep] at h'
      split at h'
      · exact absurd h' (by simp)
      · split at h'
        · cases h'
          exact hb _ rfl
        · cases h'
          rw [List.foldl_append, hb _ rfl]
          next hpf hdup =>
            simp [List.foldl_cons, tstep, hpf, hdup]

theorem foldl_tstep_good {b : Bucket} (hb : GoodB b) (xs : List ValueConstraint) :
    GoodB (List.foldl tstep b xs) := by
  induction xs generalizing b with
  | nil => exact hb
  | cons r rest ih => exact ih (tstep_good hb r)

theorem tstep_covered_mono {b : Bucket} {c : ValueConstraint}
    (h : coveredBy b c) (r : ValueConstraint) : coveredBy (tstep b r) c := by
  rcases h with h | ⟨l, hb, hc⟩
  · subst h
    exact .inl rfl
  · subst hb
    rw [tstep]
    split
    · exact .inl rfl
    · split
      · exact .inr ⟨l, rfl, hc⟩
      · exact .inr ⟨l ++ [r], rfl, List.mem_append.2 (.inl hc)⟩

theorem tstep_covers (b : Bucket) (r : ValueConstraint) : coveredBy (tstep b r) r := by
  cases b with
  | unset => exact .inr ⟨[r], rfl, List.mem_singleton.2 rfl⟩
  | generalized => exact .inl rfl
  | specifics l =>
      rw [tstep]
      split
      · exact .inl rfl
      · split
        · next hpf hdup =>
            rcases List.any_eq_true.1 hdup with ⟨c2, hc2, hid⟩
            have := identical_sound (Bool.not_eq_true _ ▸ Bool.of_not_eq_true hpf) hid
            exact .inr ⟨l, rfl, this ▸ hc2⟩
        · exact .inr ⟨l ++ [r], rfl, List.mem_append.2 (.inr (List.mem_singleton.2 rfl))⟩

theorem foldl_covered_mono {b : Bucket} {c : ValueConstraint}
    (h : coveredBy b c) (xs : List ValueConstraint) :
    coveredBy (List.foldl tstep b xs) c := by
  induction xs generalizing b with
  | nil => exact h
  | cons r rest ih => exact ih (tstep_covered_mono h r)

theorem foldl_tstep_covers (xs : List ValueConstraint) (b : Bucket)
    (c : ValueConstraint) (hc : c ∈ xs) :
    coveredBy (List.foldl tstep b xs) c := by
  induction xs generalizing b with
  | nil => exact absurd hc (by simp)
  | cons r rest ih =>
      rw [List.foldl_cons]
      rcases List.mem_cons.1 hc with h | h
      · subst h
        exact foldl_covered_mono (tstep_covers b c) rest
      · exact ih (tstep b r) h

theorem nodupB_unset : NodupB .unset := by
  intro l h
  exact absurd h (by simp)

theorem tstep_nodup {b : Bucket} (hb : NodupB b) (r : ValueConstraint) :
    NodupB (tstep b r) := by
  intro l' h'
  cases b with
  | unset =>
      rw [tstep] at h'
      cases h'
      simp
  | generalized => exact absurd h' (by simp [tstep])
  | specifics l =>
      rw [tstep] at h'
      split at h'
      · exact absurd h' (by simp)
      · split at h'
        · cases h'
          exact hb _ rfl
        · cases h'
          next hpf hdup =>
            refine List.Nodup.append (hb _ rfl) (by simp) ?_
            intro a ha ha'
            rw [List.mem_singleton.1 ha'] at ha
            exact absurd (List.any_eq_true.2 ⟨r, ha, identical_refl r⟩) (by simp [hdup])

theorem foldl_tstep_nodup {b : Bucket} (hb : NodupB b) (xs : List ValueConstraint) :
    NodupB (List.foldl tstep b xs) := by
  induction xs generalizing b with
  | nil => exact hb
  | cons r rest ih => exact ih (tstep_nodup hb r)

theorem mem_orderedValueTypes (t : ValueType) : t ∈ orderedValueTypes := by
  cases t <;> simp [orderedValueTypes]

theorem orderedValueTypes_nodup : orderedValueTypes.Nodup := by decide

theorem mem_foldr_buckets (m : BucketMap) (ts : List ValueType) (c : ValueConstraint) :
    c ∈ ts.foldr (fun t acc => bucketConstraints t (m t) ++ acc) [] ↔
      ∃ t ∈ ts, c ∈ bucketConstraints t (m t) := by
  induction ts with
  | nil => simp
  | cons t0 ts ih => simp [List.foldr_cons, ih]

theorem mem_rebuild (m : BucketMap) (c : ValueConstraint) :
    c ∈ rebuild m ↔ ∃ t, c ∈ bucketConstraints t (m t) := by
  rw [rebuild, mem_foldr_buckets]
  exact ⟨fun ⟨t, _, h⟩ => ⟨t, h⟩, fun ⟨t, h⟩ => ⟨t, mem_orderedValueTypes t, h⟩⟩

theorem typeFilter_eq_nil_of_typed {t : ValueType} {l : List ValueConstraint}
    (h : ∀ c ∈ l, constraintType c ≠ t) : typeFilter t l = [] := by
  rw [typeFilter, List.filter_eq_nil_iff]
  intro c hc
  simp [h c hc]

theorem typeFilter_eq_self_of_typed {t : ValueType} {l : List ValueConstraint}
    (h : ∀ c ∈ l, constraintType c = t) : typeFilter t l = l := by
  rw [typeFilter, List.filter_eq_self]
  intro c hc
  simp [h c hc]

theorem typeFilter_foldr_eq_nil (m : BucketMap) (ts : List ValueType) (t : ValueType)
    (hts : t ∉ ts)
    (htyped : ∀ t' c, c ∈ bucketConstraints t' (m t') → constraintType c = t') :
    typeFilter t (ts.foldr (fun t' acc => bucketConstraints t' (m t') ++ acc) []) = [] := by
  induction ts with
  | nil => simp [typeFilter]
  | cons t0 ts ih =>
      rw [List.foldr_cons, typeFilter, List.filter_append, ← typeFilter, ← typeFilter]
      rw [ih (fun h => hts (List.mem_cons_of_mem t0 h))]
      rw [typeFilter_eq_nil_of_typed, List.nil_append]
      intro c hc
      rw [htyped t0 c hc]
      intro e
      exact hts (e ▸ List.mem_cons_self t0 ts)

theorem typeFilter_foldr_eq_bucket (m : BucketMap) (t : ValueType)
    (htyped : ∀ t' c, c ∈ bucketConstraints t' (m t') → constraintType c = t') :
    ∀ ts : List ValueType, ts.Nodup → t ∈ ts →
      typeFilter t (ts.foldr (fun t' acc => bucketConstraints t' (m t') ++ acc) []) =
        bucketConstraints t (m t) := by
  intro ts
  induction ts with
  | nil => intro _ hmem; exact absurd hmem (by simp)
  | cons t0 ts ih =>
      intro hnd hmem
      rw [List.foldr_cons, typeFilter, List.filter_append, ← typeFilter, ← typeFilter]
      by_cases h0 : t0 = t
      · subst h0
        rw [typeFilter_eq_self_of_typed (fun c hc => htyped t0 c hc)]
        rw [typeFilter_foldr_eq_nil m ts t0 (List.Nodup.not_mem hnd) htyped]
        exact List.append_nil _
      · rw [typeFilter_eq_nil_of_typed (fun c hc => by rw [htyped t0 c hc]; exact h0)]
        rw [List.nil_append]
        exact ih (List.Nodup.of_cons hnd)
          ((List.mem_cons.1 hmem).resolve_left (fun e => h0 e.symm))

theorem typeFilter_rebuild (m : BucketMap) (t : ValueType)
    (htyped : ∀ t' c, c ∈ bucketConstraints t' (m t') → constraintType c = t') :
    typeFilter t (rebuild m) = bucketConstraints t (m t) :=
  typeFilter_foldr_eq_bucket m t htyped orderedValueTypes orderedValueTypes_nodup
    (mem_orderedValueTypes t)

theorem rebuild_congr {m1 m2 : BucketMap}
    (h : ∀ t, bucketConstraints t (m1 t) = bucketConstraints t (m2 t)) :
    rebuild m1 = rebuild m2 := by
  rw [rebuild, rebuild]
  induction orderedValueTypes with
  | nil => rfl
  | cons t0 ts ih => rw [List.foldr_cons, List.foldr_cons, h t0, ih]

theorem mem_typeFilter {t : ValueType} {rs : List ValueConstraint} {c : ValueConstraint} :
    c ∈ typeFilter t rs ↔ c ∈ rs ∧ constraintType c = t := by
  simp [typeFilter, List.mem_filter]

theorem processed_buckets_typed {rs : List ValueConstraint} {m' : BucketMap}
    (h : processList emptyBuckets rs = some m') :
    ∀ t c, c ∈ bucketConstraints t (m' t) → constraintType c = t := by
  intro t c hc
  have hb := processList_some_bucket _ _ _ h t
  cases hbk : m' t with
  | unset =>
      rw [hbk] at hc
      simp [bucketConstraints] at hc
  | generalized =>
      rw [hbk] at hc
      simp [bucketConstraints] at hc
      subst hc
      rw [hbk] at hb
      rcases foldl_tstep_generalized_source _ _ hb.symm with h1 | ⟨r, hr, _⟩
      · exact absurd h1 (by simp [emptyBuckets])
      · have hrt : constraintType r = t := (mem_typeFilter.1 hr).2
        calc constraintType (genericOf t)
            = constraintType (genericOf (constraintType r)) := by rw [hrt]
          _ = constraintType r := constraintType_genericOf r
          _ = t := hrt
  | specifics l =>
      rw [hbk] at hc hb
      simp [bucketConstraints] at hc
      rcases foldl_tstep_specifics_subset _ _ _ hb.symm c hc with ⟨l0, h0, _⟩ | hmem
      · exact absurd h0 (by simp [emptyBuckets])
      · exact (mem_typeFilter.1 hmem).2

theorem applyToValue_of_no_any {v : Value} {f : ValueConstraint → List ValueConstraint}
    (h : ValueConstraint.anyC ∉ v.constraints.flatMap f) :
    ∃ m', processList emptyBuckets (v.constraints.flatMap f) = some m' ∧
      applyToValue v f = Value.mk (rebuild m') := by
  cases hp : processList emptyBuckets (v.constraints.flatMap f) with
  | none => exact absurd ((processList_eq_none_iff _ _).1 hp) h
  | some m' =>
      refine ⟨m', rfl, ?_⟩
      rw [applyToValue, processConstraints_eq_flatMap, hp]

theorem applyToValue_of_any {v : Value} {f : ValueConstraint → List ValueConstraint}
    (h : ValueConstraint.anyC ∈ v.constraints.flatMap f) :
    applyToValue v f = Value.mk [.anyC] := by
  rw [applyToValue, processConstraints_eq_flatMap, (processList_eq_none_iff _ _).2 h]

theorem flatMap_id (l : List ValueConstraint) : (l.flatMap fun c => [c]) = l := by
  induction l with
  | nil => rfl
  | cons c cs ih => rw [List.flatMap_cons, ih]; rfl

theorem joinId_of_no_any {v : Value} (h : ValueConstraint.anyC ∉ v.constraints) :
    ∃ m', processList emptyBuckets v.constraints = some m' ∧
      joinId v = Value.mk (rebuild m') := by
  have h' : ValueConstraint.anyC ∉ v.constraints.flatMap fun c => [c] := by
    rw [flatMap_id]; exact h
  obtain ⟨m', hp, he⟩ := applyToValue_of_no_any h'
  rw [flatMap_id] at hp
  exact ⟨m', hp, he⟩

theorem joinId_subset (v : Value) :
    ∀ c ∈ (joinId v).constraints, c ∈ v.constraints := by
  intro c hc
  by_cases hany : ValueConstraint.anyC ∈ v.constraints
  · rw [joinId, applyToValue_of_any (by rw [flatMap_id]; exact hany)] at hc
    simp [Value.constraints] at hc
    subst hc
    exact hany
  · obtain ⟨m', hp, he⟩ := joinId_of_no_any hany
    rw [he] at hc
    simp only [Value.constraints] at hc
    rcases (mem_rebuild m' c).1 hc with ⟨t, hbt⟩
    have hb := processList_some_bucket _ _ _ hp t
    cases hbk : m' t with
    | unset =>
        rw [hbk] at hbt
        simp [bucketConstraints] at hbt
    | generalized =>
        rw [hbk] at hbt hb
        simp [bucketConstraints] at hbt
        subst hbt
        rcases foldl_tstep_generalized_source _ _ hb.symm with h1 | ⟨r, hr, hpf⟩
        · exact absurd h1 (by simp [emptyBuckets])
        · have hrt : constraintType r = t := (mem_typeFilter.1 hr).2
          have : r = genericOf t := by
            rw [payloadFree_eq_genericOf hpf, hrt]
          rw [← this]
          exact (mem_typeFilter.1 hr).1
    | specifics l =>
        rw [hbk] at hbt hb
        simp [bucketConstraints] at hbt
        rcases foldl_tstep_specifics_subset _ _ _ hb.symm c hbt with ⟨l0, h0, _⟩ | hmem
        · exact absurd h0 (by simp [emptyBuckets])
        · exact (mem_typeFilter.1 hmem).1

theorem joinId_subsumes (v : Value) :
    ∀ c ∈ v.constraints, ∃ c' ∈ (joinId v).constraints, Subsumes c' c := by
  intro c hc
  by_cases hany : ValueConstraint.anyC ∈ v.constraints
  · refine ⟨.anyC, ?_, .inr (.inl rfl)⟩
    rw [joinId, applyToValue_of_any (by rw [flatMap_id]; exact hany)]
    simp [Value.constraints]
  · obtain ⟨m', hp, he⟩ := joinId_of_no_any hany
    have hcf : c ∈ typeFilter (constraintType c) v.constraints :=
      mem_typeFilter.2 ⟨hc, rfl⟩
    have hcov := foldl_tstep_covers (typeFilter (constraintType c) v.constraints)
      (emptyBuckets (constraintType c)) c hcf
    rw [← processList_some_bucket _ _ _ hp (constraintType c)] at hcov
    rcases hcov with hgen | ⟨l, hbk, hcl⟩
    · refine ⟨genericOf (constraintType c), ?_, .inr (.inr
        ⟨payloadFree_genericOf _, constraintType_genericOf c⟩)⟩
      rw [he]
      simp only [Value.constraints]
      exact (mem_rebuild m' _).2 ⟨constraintType c, by rw [hgen]; simp [bucketConstraints]⟩
    · refine ⟨c, ?_, .inl rfl⟩
      rw [he]
      simp only [Value.constraints]
      exact (mem_rebuild m' _).2 ⟨constraintType c, by rw [hbk]; simpa [bucketConstraints] using hcl⟩

theorem joinId_idem (v : Value) : joinId (joinId v) = joinId v := by
  by_cases hany : ValueConstraint.anyC ∈ v.constraints
  · have h1 : joinId v = Value.mk [.anyC] :=
      applyToValue_of_any (by rw [flatMap_id]; exact hany)
    rw [h1]
    exact applyToValue_of_any (by simp [Value.constraints])
  · obtain ⟨m', hp, he⟩ := joinId_of_no_any hany
    have htyped := processed_buckets_typed hp
    have hbany : m' ValueType.any = .unset := by
      rw [processList_some_bucket _ _ _ hp ValueType.any]
      rw [typeFilter_eq_nil_of_typed]
      · rfl
      · intro c hcc e
        exact hany ((constraintType_eq_any_iff c).1 e ▸ hcc)
    have hnotany : ValueConstraint.anyC ∉ rebuild m' := by
      intro hmem
      rcases (mem_rebuild m' _).1 hmem with ⟨t, hbt⟩
      have ht : t = ValueType.any := (htyped t _ hbt).symm
      subst ht
      rw [hbany] at hbt
      simp [bucketConstraints] at hbt
    rw [he]
    obtain ⟨m2, hp2, he2⟩ := joinId_of_no_any (v := Value.mk (rebuild m'))
      (by simpa [Value.constraints] using hnotany)
    rw [he2]
    simp only [Value.constraints] at hp2
    congr 1
    apply rebuild_congr
    intro t
    have hb2 := processList_some_bucket _ _ _ hp2 t
    rw [typeFilter_rebuild m' t htyped] at hb2
    simp only [emptyBuckets] at hb2
    cases hbk : m' t with
    | unset =>
        rw [hbk] at hb2
        simp only [bucketConstraints, List.foldl_nil] at hb2
        rw [hb2]
    | generalized =>
        rw [hbk] at hb2
        have h2 : m2 t = Bucket.specifics [genericOf t] := by
          simpa [bucketConstraints, tstep] using hb2
        rw [h2]
        rfl
    | specifics l =>
        rw [hbk] at hb2
        simp only [bucketConstraints] at hb2
        have hgood := foldl_tstep_good (b := Bucket.unset) goodB_unset
          (typeFilter t v.constraints)
        have hgood' : GoodB (m' t) := by
          rw [processList_some_bucket _ _ _ hp t]
          simpa [emptyBuckets] using hgood
        have hll := hgood' l hbk
        rw [hll] at hb2
        rw [hb2]

theorem nodup_foldr_buckets (m : BucketMap)
    (htyped : ∀ t c, c ∈ bucketConstraints t (m t) → constraintType c = t)
    (hnd : ∀ t, NodupB (m t)) :
    ∀ ts : List ValueType, ts.Nodup →
      (ts.foldr (fun t acc => bucketConstraints t (m t) ++ acc) []).Nodup := by
  intro ts
  induction ts with
  | nil => intro _; simp
  | cons t0 ts ih =>
      intro hts
      rw [List.foldr_cons]
      refine List.Nodup.append ?_ (ih (List.Nodup.of_cons hts)) ?_
      · cases hbk : m t0 with
        | unset => simp [bucketConstraints]
        | generalized => simp [bucketConstraints]
        | specifics l => simpa [bucketConstraints] using hnd t0 l hbk
      · intro a ha ha'
        rcases (mem_foldr_buckets m ts a).1 ha' with ⟨t', ht', hat'⟩
        have h1 : constraintType a = t0 := htyped t0 a ha
        have h2 : constraintType a = t' := htyped t' a hat'
        exact (List.Nodup.not_mem hts) (h1 ▸ h2 ▸ ht')

theorem joinId_nodup (v : Value) : (joinId v).constraints.Nodup := by
  by_cases hany : ValueConstraint.anyC ∈ v.constraints
  · rw [joinId, applyToValue_of_any (by rw [flatMap_id]; exact hany)]
    simp [Value.constraints]
  · obtain ⟨m', hp, he⟩ := joinId_of_no_any hany
    rw [he]
    simp only [Value.constraints]
    rw [rebuild]
    refine nodup_foldr_buckets m' (processed_buckets_typed hp) ?_ orderedValueTypes
      orderedValueTypes_nodup
    intro t
    rw [processList_some_bucket _ _ _ hp t]
    simpa [emptyBuckets] using
      foldl_tstep_nodup (b := Bucket.unset) nodupB_unset (typeFilter t v.constraints)

theorem applyToValue_generalizes {v : Value} {f : ValueConstraint → List ValueConstraint}
    {t : ValueType} (hany : ValueConstraint.anyC ∉ v.constraints.flatMap f)
    {pre post : List ValueConstraint} {g : ValueConstraint}
    (hsplit : typeFilter t (v.constraints.flatMap f) = pre ++ g :: post)
    (hpre : pre ≠ []) (hg : payloadFree g = true) :
    typeFilter t (applyToValue v f).constraints = [genericOf t] := by
  obtain ⟨m', hp, he⟩ := applyToValue_of_no_any hany
  rw [he]
  simp only [Value.constraints]
  rw [typeFilter_rebuild m' t (processed_buckets_typed hp)]
  have hb := processList_some_bucket _ _ _ hp t
  rw [hsplit, List.foldl_append, List.foldl_cons] at hb
  simp only [emptyBuckets] at hb
  have hgeneral : m' t = .generalized := by
    cases hpre' : List.foldl tstep Bucket.unset pre with
    | unset => exact absurd (foldl_tstep_eq_unset hpre').2 hpre
    | generalized =>
        rw [hpre'] at hb
        rw [show tstep Bucket.generalized g = .generalized from rfl] at hb
        rw [foldl_tstep_generalized] at hb
        exact hb
    | specifics l =>
        rw [hpre'] at hb
        rw [show tstep (Bucket.specifics l) g = .generalized from by simp [tstep, hg]] at hb
        rw [foldl_tstep_generalized] at hb
        exact hb
  rw [hgeneral]
  rfl

theorem setVarGo_spec (store : List ScopeRec) (name : String) (v : Value)
    (hwf : WFStore store) :
    ∀ fuel sid, sid < store.length → sid + 1 ≤ fuel →
      ∃ t r, ResolvesTo store name sid t ∧ store[t]? = some r ∧ t < store.length ∧
        setVarGo store name v fuel sid =
          store.set t { r with bindings := bindingsSet r.bindings name v } := by
  intro fuel
  induction fuel with
  | zero => intro sid _ hf; exact absurd hf (by omega)
  | succ fuel ih =>
      intro sid hsid _
      obtain ⟨r, hr⟩ : ∃ r, store[sid]? = some r :=
        ⟨store[sid], List.getElem?_eq_getElem hsid⟩
      cases hpar : r.parent with
      | none =>
          refine ⟨sid, r, ResolvesTo.root sid r hr hpar, hr, hsid, ?_⟩
          simp only [setVarGo, hr, hpar, setBindingAt]
      | some p =>
          by_cases hhas : bindingsHas r.bindings name = true
          · refine ⟨sid, r, ResolvesTo.here sid r hr hhas, hr, hsid, ?_⟩
            simp only [setVarGo, hr, hpar, hhas, if_true, setBindingAt]
          · have hplt : p < sid := hwf sid r p hr hpar
            obtain ⟨t, rt, hres, hrt, htlt, heq⟩ := ih p (by omega) (by omega)
            refine ⟨t, rt, ResolvesTo.parent sid r p t hr (by simpa using hhas)
              hpar hres, hrt, htlt, ?_⟩
            simp only [setVarGo, hr, hpar]
            rw [if_neg hhas]
            exact heq

theorem setVar_spec (store : List ScopeRec) (sid : Nat) (name : String) (v : Value)
    (hwf : WFStore store) (hsid : sid < store.length) :
    ∃ t r, ResolvesTo store name sid t ∧ store[t]? = some r ∧ t < store.length ∧
      setVar store sid name v =
        store.set t { r with bindings := bindingsSet r.bindings name v } :=
  setVarGo_spec store name v hwf store.length sid hsid (by omega)

/-- Claim C1, counterexample: contributing the generic (payload-free) Number
constraint first and the specific `Number 1` second leaves BOTH in the joined
Value — the later specific constraint is not discarded, because a payload-free
constraint arriving at an empty bucket is stored as an ordinary entry rather
than marking the bucket generalized. -/
theorem join_generic_first_keeps_later_specific :
    (applyToValue (Value.mk [.numberC none, .numberC (some 1)]) (fun c => [c])).constraints
      = [.numberC none, .numberC (some 1)] ∧
    ValueConstraint.numberC (some 1) ∈
      (applyToValue (Value.mk [.numberC none, .numberC (some 1)]) (fun c => [c])).constraints := by
  refine ⟨rfl, ?_⟩
  rw [show (applyToValue (Value.mk [.numberC none, .numberC (some 1)]) (fun c => [c])).constraints
      = [.numberC none, .numberC (some 1)] from rfl]
  simp

/-- Claim C1, amended: the bucket for a type is set to generalized only when a
payload-free constraint of that type is processed while at least one
constraint of that type was already recorded (a payload-free constraint that
arrives first is stored as an ordinary entry); once that happens, the joined
Value carries exactly the one generic constraint for that type — the
previously recorded specifics and every later constraint of that type are
discarded. -/
theorem join_generalization_discards
    (v : Value) (f : ValueConstraint → List ValueConstraint) (t : ValueType)
    (pre post : List ValueConstraint) (g : ValueConstraint)
    (hany : ValueConstraint.anyC ∉ v.constraints.flatMap f)
    (hsplit : typeFilter t (v.constraints.flatMap f) = pre ++ g :: post)
    (hpre : pre ≠ []) (hg : payloadFree g = true) :
    typeFilter t (applyToValue v f).constraints = [genericOf t] :=
  applyToValue_generalizes hany hsplit hpre hg

/-- Witness for `join_generalization_discards`: joining
`[Number 1, Number generic]` with the identity transform yields exactly the
generic Number constraint. -/
theorem join_generalization_discards_witness :
    typeFilter ValueType.number
        (applyToValue (Value.mk [.numberC (some 1), .numberC none]) (fun c => [c])).constraints
      = [genericOf ValueType.number] :=
  join_generalization_discards (Value.mk [.numberC (some 1), .numberC none])
    (fun c => [c]) ValueType.number [.numberC (some 1)] [] (.numberC none)
    (by rw [flatMap_id]; simp [Value.constraints])
    (by rw [flatMap_id]; rfl) (by simp) rfl

/-- Claim C2, counterexample: the call-expression callback applied to a
Function constraint that carries a syntax-node reference but no native
handler contributes the generic Any constraint, not zero constraints — the
`if (constraint.node)` block is empty and falls through. -/
theorem call_node_without_handler_contributes_any :
    callExpressionTransform Node.unknownNode [] (.functionC none none (some 7))
        initialEvalState = (.ok [.anyC], initialEvalState) ∧
    (.ok [ValueConstraint.anyC] : Except CompileError (List ValueConstraint)) ≠ .ok [] := by
  refine ⟨rfl, ?_⟩
  simp

/-- Claim C2, amended: in a call expression, every Function constraint of the
callee lacking a native handler contributes the generic Any constraint,
whether or not it carries a syntax-node reference (the node-bearing branch is
an empty `TODO` placeholder that falls through to the generic Any), and it
records no side effect. -/
theorem call_no_handler_contributes_any (node : Node) (args : List Value)
    (hs : Option Bool) (nd : Option Nat) (σ : EvalState) :
    callExpressionTransform node args (.functionC hs none nd) σ = (.ok [.anyC], σ) :=
  rfl

/-- Claim C3: if the generic Any constraint is among the results contributed
during a join, the joined Value consists of exactly that single generic Any
constraint (everything accumulated before or contributed after is absorbed). -/
theorem join_any_short_circuits (v : Value) (f : ValueConstraint → List ValueConstraint)
    (h : ValueConstraint.anyC ∈ v.constraints.flatMap f) :
    applyToValue v f = Value.mk [.anyC] :=
  applyToValue_of_any h

/-- Witness for `join_any_short_circuits` at a concrete Value and transform. -/
theorem join_any_short_circuits_witness :
    ValueConstraint.anyC ∈
        (Value.mk [.undefinedC, .numberC (some 1)]).constraints.flatMap
          (fun _ => [ValueConstraint.anyC]) ∧
    applyToValue (Value.mk [.undefinedC, .numberC (some 1)])
        (fun _ => [ValueConstraint.anyC]) = Value.mk [.anyC] :=
  ⟨by simp [Value.constraints], join_any_short_circuits _ _ (by simp [Value.constraints])⟩

/-- Claim C4: the join with the identity transform returns a Value
observationally equal to its input — every output constraint is an input
constraint, every input constraint is subsumed by some output constraint
(equal to it, or the generic constraint of its type after generalization, or
the absorbing Any), the output is duplicate-free — and the identity join is
idempotent. -/
theorem join_identity_observational_idempotent (v : Value) :
    (∀ c ∈ (joinId v).constraints, c ∈ v.constraints) ∧
    (∀ c ∈ v.constraints, ∃ c' ∈ (joinId v).constraints, Subsumes c' c) ∧
    (joinId v).constraints.Nodup ∧
    joinId (joinId v) = joinId v :=
  ⟨joinId_subset v, joinId_subsumes v, joinId_nodup v, joinId_idem v⟩

/-- Witness for `join_identity_observational_idempotent` at a concrete Value
with a duplicate constraint. -/
theorem join_identity_observational_idempotent_witness :
    (∃ c' ∈ (joinId (Value.mk [.numberC (some 1), .numberC (some 1)])).constraints,
      Subsumes c' (.numberC (some 1))) ∧
    joinId (joinId (Value.mk [.numberC (some 1), .numberC (some 1)]))
      = joinId (Value.mk [.numberC (some 1), .numberC (some 1)]) :=
  ⟨(join_identity_observational_idempotent (Value.mk [.numberC (some 1), .numberC (some 1)])).2.1
      (.numberC (some 1)) (by simp [Value.constraints]),
    (join_identity_observational_idempotent (Value.mk [.numberC (some 1), .numberC (some 1)])).2.2.2⟩

/-- Claim C5: a run of `compile` yields either an empty diagnostic list (the
evaluation completed, or ended in an abstract exception) or exactly one
diagnostic, built from the single `CompileError` that aborted the evaluation
at the first unsupported construct; the `Except` channel stops at the first
throw, so a second diagnostic can never accumulate. -/
theorem compile_zero_or_one_diagnostic (sf : Node) :
    ((∃ r, (runProgram sf).1 = .ok r) ∧ (compile sf).diagnostics = []) ∨
    (∃ e, (runProgram sf).1 = .error e ∧
      (compile sf).diagnostics = [mkDiagnostic e.message e.node]) := by
  cases h : (runProgram sf).1 with
  | ok r => exact .inl ⟨⟨r, rfl⟩, by simp [compile, h]⟩
  | error e => exact .inr ⟨e, rfl, by simp [compile, h]⟩

/-- Claim C6: evaluating `console.log(1);` yields zero diagnostics and exactly
one recorded side effect whose argument list is a single Number Value with
literal 1, and the call expression itself produces an Undefined-typed Value. -/
theorem console_log_program_behavior :
    compile consoleLogProgram = ⟨[]⟩ ∧
    (runProgram consoleLogProgram).2.sideEffects = [⟨[Value.mk [.numberC (some 1)]]⟩] ∧
    execNode 9 consoleLogCallNode 0 initialEvalState =
      (.ok { value := some (Value.mk [.undefinedC]) },
        { initialEvalState with sideEffects := [⟨[Value.mk [.numberC (some 1)]]⟩] }) :=
  ⟨rfl, rfl, rfl⟩

/-- Claim C7: in property access, an Object constraint with no known property
map contributes the generic Any constraint; one whose map contains the
accessed name contributes exactly the stored nested Value's constraints; one
whose map lacks the name contributes zero constraints — so a receiver whose
only constraint is a specific Object lacking the property yields a Value with
an empty constraint sequence. -/
theorem property_access_contributions :
    (∀ (node : Node) (name : String) (σ : EvalState),
      propertyAccessTransform node name (.objectC none) σ = (.ok [.anyC], σ)) ∧
    (∀ (node : Node) (name : String) (p : List (String × Value)) (w : Value)
      (σ : EvalState), propsFind p name = some w →
      propertyAccessTransform node name (.objectC (some p)) σ = (.ok w.constraints, σ)) ∧
    (∀ (node : Node) (name : String) (p : List (String × Value)) (σ : EvalState),
      propsFind p name = none →
      propertyAccessTransform node name (.objectC (some p)) σ = (.ok [], σ)) ∧
    applyToValueM (Value.mk [.objectC (some [("a", Value.mk [.numberC (some 1)])])])
        (propertyAccessTransform Node.unknownNode "b") initialEvalState =
      (.ok (Value.mk []), initialEvalState) := by
  refine ⟨fun node name σ => rfl, ?_, ?_, rfl⟩
  · intro node name p w σ h
    simp [propertyAccessTransform, h, pureE]
  · intro node name p σ h
    simp [propertyAccessTransform, h, pureE]

/-- Witness for the hypothesis-bearing parts of `property_access_contributions`
at a concrete property map. -/
theorem property_access_contributions_witness :
    propertyAccessTransform Node.unknownNode "a"
        (.objectC (some [("a", Value.mk [.numberC (some 1)])])) initialEvalState =
      (.ok (Value.mk [.numberC (some 1)]).constraints, initialEvalState) ∧
    propertyAccessTransform Node.unknownNode "b"
        (.objectC (some [("a", Value.mk [.numberC (some 1)])])) initialEvalState =
      (.ok [], initialEvalState) :=
  ⟨property_access_contributions.2.1 Node.unknownNode "a" _ _ initialEvalState rfl,
    property_access_contributions.2.2.1 Node.unknownNode "b" _ initialEvalState rfl⟩

/-- Claim C8: on a well-formed scope chain, `setVar` rebinds the entry of the
scope the walk resolves to — the nearest scope (from the calling one toward
the root) that already has a binding, else the root — leaving every other
scope's binding map unchanged and never creating a binding at an intermediate
scope; in particular, on the chain S0 ⊂ S1 ⊂ S2 with `x` bound only in S0,
`setVar("x", ·)` from S2 updates S0 and leaves S1 and S2 without a local `x`. -/
theorem setVar_rebinds_nearest :
    (∀ (store : List ScopeRec) (sid : Nat) (name : String) (v : Value),
      WFStore store → sid < store.length →
      ∃ t r, ResolvesTo store name sid t ∧ store[t]? = some r ∧
        setVar store sid name v =
          store.set t { r with bindings := bindingsSet r.bindings name v } ∧
        (∀ j, j ≠ t → (setVar store sid name v)[j]? = store[j]?) ∧
        (setVar store sid name v)[t]? =
          some { r with bindings := bindingsSet r.bindings name v }) ∧
    setVar chainStore 2 "x" (Value.mk [.numberC (some 2)]) = chainStoreAfter := by
  constructor
  · intro store sid name v hwf hsid
    obtain ⟨t, r, hres, hrt, htlt, heq⟩ := setVar_spec store sid name v hwf hsid
    refine ⟨t, r, hres, hrt, heq, ?_, ?_⟩
    · intro j hj
      rw [heq]
      exact List.getElem?_set_ne (fun e => hj e.symm)
    · rw [heq]
      exact List.getElem?_set_self htlt
  · rfl

/-- Witness for `setVar_rebinds_nearest` on the concrete three-scope chain. -/
theorem setVar_rebinds_nearest_witness :
    ∃ t r, ResolvesTo chainStore "x" 2 t ∧ chainStore[t]? = some r ∧
      setVar chainStore 2 "x" (Value.mk [.numberC (some 2)]) =
        chainStore.set t { r with bindings := bindingsSet r.bindings "x" (Value.mk [.numberC (some 2)]) } ∧
      (∀ j, j ≠ t → (setVar chainStore 2 "x" (Value.mk [.numberC (some 2)]))[j]? = chainStore[j]?) ∧
      (setVar chainStore 2 "x" (Value.mk [.numberC (some 2)]))[t]? =
        some { r with bindings := bindingsSet r.bindings "x" (Value.mk [.numberC (some 2)]) } :=
  setVar_rebinds_nearest.1 chainStore 2 "x" (Value.mk [.numberC (some 2)])
    (by
      intro i r p hr hp
      match i, hr with
      | 0, hr =>
          simp only [chainStore] at hr
          cases hr
          simp at hp
      | 1, hr =>
          simp only [chainStore] at hr
          cases hr
          simp at hp
          omega
      | 2, hr =>
          simp only [chainStore] at hr
          cases hr
          simp at hp
          omega
      | n + 3, hr => simp [chainStore] at hr)
    (by simp [chainStore])

/-- Claim C9: reading an identifier other than the literal `undefined` that is
bound nowhere in the scope chain produces a thrown abstract exception carrying
an Undefined-typed Value (an `Except.ok` outcome, not an engine failure); a
statement whose result carries an exception stops the statement sequence
before any later statement runs; and a run whose evaluation completes without
a thrown `CompileError` reports no diagnostics — the uncaught abstract
exception never becomes one. -/
theorem unbound_identifier_exception_no_diagnostic :
    (∀ (fuel : Nat) (σ : EvalState) (sid : Nat) (name : String),
      name ≠ "undefined" → lookupVar σ.scopes sid name = none →
      execNode (fuel + 1) (.identifier name) sid σ =
        (.ok { exception := some (Value.mk [.undefinedC]) }, σ)) ∧
    (∀ (fuel : Nat) (s : Node) (post : List Node) (sid : Nat) (σ σ' : EvalState)
      (r : ExecResult), execNode fuel s sid σ = (.ok r, σ') →
      r.exception.isSome = true →
      execStatements (fuel + 1) (s :: post) sid σ = (.ok (), σ')) ∧
    (∀ (sf : Node) (r : ExecResult) (σ' : EvalState),
      runProgram sf = (.ok r, σ') → (compile sf).diagnostics = []) := by
  refine ⟨?_, ?_, ?_⟩
  · intro fuel σ sid name hname hlook
    simp [execNode, hname, bindE, lookupVarM, hlook, pureE]
  · intro fuel s post sid σ σ' r hexec hexc
    simp [execStatements, bindE, hexec, hexc, pureE]
  · intro sf r σ' hrun
    simp [compile, hrun]

/-- Witness for `unbound_identifier_exception_no_diagnostic` on the program
`y; <unsupported>;`: the read throws the abstract exception, the unsupported
second statement is never reached, and the run reports no diagnostics. -/
theorem unbound_identifier_exception_no_diagnostic_witness :
    execNode 5 (.identifier "y") 0 initialEvalState =
      (.ok { exception := some (Value.mk [.undefinedC]) }, initialEvalState) ∧
    execStatements 7 [unboundRead, Node.unknownNode] 0 initialEvalState =
      (.ok (), initialEvalState) ∧
    (compile unboundProgram).diagnostics = [] :=
  ⟨unbound_identifier_exception_no_diagnostic.1 4 initialEvalState 0 "y"
      (by decide) rfl,
    unbound_identifier_exception_no_diagnostic.2.1 6 unboundRead [Node.unknownNode]
      0 initialEvalState initialEvalState
      { exception := some (Value.mk [.undefinedC]) } rfl rfl,
    unbound_identifier_exception_no_diagnostic.2.2 unboundProgram {} initialEvalState rfl⟩

/-- Claim C10: side-effect recording is not atomic with engine failure — when
the callee's Value holds a side-effecting, handler-bearing Function constraint
ordered before a non-Function constraint, the call-expression join records
the side effect and then aborts with the unsupported-call `CompileError`,
and the recorded entry survives in the state returned alongside the error
(so a run ending in one diagnostic can still carry recorded side effects). -/
theorem side_effect_recorded_before_failure :
    (∀ (σ : EvalState) (h : Handler) (nd : Option Nat) (c2 : ValueConstraint)
      (rest : List ValueConstraint) (args : List Value) (node : Node),
      constraintType c2 ≠ ValueType.function →
      applyToValueM (Value.mk (.functionC (some true) (some h) nd :: c2 :: rest))
          (callExpressionTransform node args) σ =
        (.error ⟨"Called value may not be a function", some node⟩,
          { σ with sideEffects := σ.sideEffects ++ [⟨args⟩] })) ∧
    execNode 9 (Node.callExpression (Node.identifier "f") [Node.numericLiteral 1]) 0
        mixedCalleeState =
      (.error ⟨"Called value may not be a function",
          some (Node.callExpression (Node.identifier "f") [Node.numericLiteral 1])⟩,
        { mixedCalleeState with sideEffects := [⟨[Value.mk [.numberC (some 1)]]⟩] }) := by
  constructor
  · intro σ h nd c2 rest args node hfn
    cases h
    cases c2 with
    | functionC hs hd nd2 => exact absurd rfl hfn
    | anyC => rfl
    | undefinedC => rfl
    | nullC => rfl
    | booleanC w => rfl
    | numberC w => rfl
    | objectC w => rfl
  · rfl

/-- Witness for `side_effect_recorded_before_failure` at a concrete state,
callee and argument list. -/
theorem side_effect_recorded_before_failure_witness :
    applyToValueM (Value.mk [.functionC (some true) (some .consoleLog) none,
        .numberC (some 2)])
        (callExpressionTransform Node.unknownNode [Value.mk [.numberC (some 1)]])
        initialEvalState =
      (.error ⟨"Called value may not be a function", some Node.unknownNode⟩,
        { initialEvalState with
            sideEffects := initialEvalState.sideEffects ++ [⟨[Value.mk [.numberC (some 1)]]⟩] }) :=
  side_effect_recorded_before_failure.1 initialEvalState .consoleLog none
    (.numberC (some 2)) [] [Value.mk [.numberC (some 1)]] Node.unknownNode (by decide)
